import Mathlib

/-!
# Verification of `basicstats.c`

A shallow embedding of the statistics program `basicstats.c` over exact
rationals (`ℚ` models the C `double`), together with proofs of the
specification's claims about it.

The embedding follows the source function by function:
* `babylonian_sqrt` — the iterative square-root loop, modelled with explicit
  fuel returning `Option ℚ` (`none` models non-termination within the fuel);
* `calculate_mean`, `calculate_stddev`, `calculate_median`, `calculate_mode`,
  `calculate_harmonic_mean` — the statistics routines, loops rendered as
  folds / structural recursion over the data list;
* `enlarge_array` and the ingestion loop of `main` — the growable buffer,
  with an allocation oracle (`Bool`) modelling `malloc` success or failure.
-/

namespace BasicStats

/-- The accuracy level `e = 0.000001` of `babylonian_sqrt`. -/
def eps : ℚ := 1 / 1000000

/-- The `while (x - y > e) { x = (x + y) / 2; y = value / x; }` loop of
`babylonian_sqrt`, with explicit fuel; `none` means the fuel was exhausted
before the guard became false. -/
def bab_loop : ℕ → ℚ → ℚ → ℚ → Option ℚ
  | 0, _, _, _ => none
  | n + 1, value, x, y =>
    if x - y > eps then bab_loop n value ((x + y) / 2) (value / ((x + y) / 2))
    else some x

/-- `babylonian_sqrt(value)`: `x = value; y = 1.0;` then the loop. -/
def babylonian_sqrt (value : ℚ) : Option ℚ :=
  bab_loop 100 value value 1

/-- `calculate_mean`: sum the data with a running accumulator, divide by size. -/
def calculate_mean (data : List ℚ) : ℚ :=
  (data.foldl (fun sum d => sum + d) 0) / (data.length : ℚ)

/-- `calculate_stddev`: sum of squared deviations from `mean`, divided by
size, passed to `babylonian_sqrt`. -/
def calculate_stddev (data : List ℚ) (mean : ℚ) : Option ℚ :=
  babylonian_sqrt ((data.foldl (fun sum_sq d => sum_sq + (d - mean) * (d - mean)) 0)
    / (data.length : ℚ))

/-- `calculate_median`: middle element(s) of the sorted data, by index;
out-of-range access is modelled by the default `0`. -/
def calculate_median (data : List ℚ) : ℚ :=
  if data.length % 2 = 0 then
    (data.getD (data.length / 2 - 1) 0 + data.getD (data.length / 2) 0) / 2
  else
    data.getD (data.length / 2) 0

/-- The loop of `calculate_mode`, scanning element `d` against the previous
element `prev`, with the current run length `count`, the best completed run
length `max_count` and its value `mode`. -/
def mode_go : List ℚ → ℚ → ℚ → ℕ → ℕ → ℚ
  | [], _, mode, _, _ => mode
  | d :: rest, prev, mode, max_count, count =>
    if d = prev then mode_go rest d mode max_count (count + 1)
    else if count > max_count then mode_go rest d prev count 1
    else mode_go rest d mode max_count 1

/-- `calculate_mode`: `mode = data[0]; max_count = 1; count = 1;` then the
scan from index 1. -/
def calculate_mode : List ℚ → ℚ
  | [] => 0
  | d :: rest => mode_go rest d d 1 1

/-- `calculate_harmonic_mean`: size divided by the sum of reciprocals. -/
def calculate_harmonic_mean (data : List ℚ) : ℚ :=
  (data.length : ℚ) / (data.foldl (fun s d => s + 1 / d) 0)

/-- `enlarge_array(old_array, old_size, &new_capacity)` with an allocation
oracle: doubles the capacity, then either returns the copied array (freeing
the old block, third component `true`) or returns `none` leaving the old
block unfreed (third component `false`). -/
def enlarge_array (old_array : List ℚ) (new_capacity : ℕ) (allocOk : Bool) :
    Option (List ℚ) × ℕ × Bool :=
  if allocOk then (some old_array, 2 * new_capacity, true)
  else (none, 2 * new_capacity, false)

/-- One iteration of the `fscanf` loop of `main`: append `v` to the buffer,
growing it first when `size == capacity`; `none` models the abort on
allocation failure. -/
def ingest_step (allocOk : Bool) (st : List ℚ × ℕ) (v : ℚ) :
    Option (List ℚ × ℕ) :=
  if st.1.length = st.2 then
    match enlarge_array st.1 st.2 allocOk with
    | (some new_data, cap, _) => some (new_data ++ [v], cap)
    | (none, _, _) => none
  else some (st.1 ++ [v], st.2)

/-- The whole `fscanf` loop: each input value is paired with the oracle answer
for the allocation its iteration might need; on failure the loop aborts
immediately and no further input is consumed. -/
def ingest : List (ℚ × Bool) → List ℚ × ℕ → Option (List ℚ × ℕ)
  | [], st => some st
  | (v, a) :: rest, st =>
    match ingest_step a st v with
    | some st2 => ingest rest st2
    | none => none

/-- `main`'s buffer setup: empty data, capacity 20, then the ingestion loop. -/
def run_ingest (input : List (ℚ × Bool)) : Option (List ℚ × ℕ) :=
  ingest input ([], 20)

/-- Capacity evolution of the ingestion loop when every allocation succeeds:
from length `len` and capacity `cap`, append `n` more values. -/
def capGrow : ℕ → ℕ → ℕ → ℕ
  | _, cap, 0 => cap
  | len, cap, n + 1 =>
    if len = cap then capGrow (len + 1) (2 * cap) n
    else capGrow (len + 1) cap n

/-! ## Specification-side definitions (from the spec's words) -/

/-- Run-length encoding of the tail of a list, an open run of `prev` with
multiplicity `count` pending. -/
def runsFrom (prev : ℚ) (count : ℕ) : List ℚ → List (ℚ × ℕ)
  | [] => [(prev, count)]
  | d :: rest =>
    if d = prev then runsFrom prev (count + 1) rest
    else (prev, count) :: runsFrom d 1 rest

/-- The runs (maximal consecutive blocks of equal values) of a list, as
(value, length) pairs. -/
def runs : List ℚ → List (ℚ × ℕ)
  | [] => []
  | x :: xs => runsFrom x 1 xs

/-- Keep the better of an accumulated candidate run and a new run, updating
only on strictly greater length. -/
def updMax (acc p : ℚ × ℕ) : ℚ × ℕ :=
  if p.2 > acc.2 then p else acc

/-- The mode as the spec describes it: among the runs of the (sorted) data
*excluding the final run*, the value of the first run of maximal length;
the first element of the data by default. -/
def specMode : List ℚ → ℚ
  | [] => 0
  | x :: xs =>
    match ((runs (x :: xs)).dropLast).find?
        (fun p => decide (∀ q ∈ (runs (x :: xs)).dropLast, q.2 ≤ p.2)) with
    | some p => p.1
    | none => x

/-- The population variance as the spec describes it: mean of squared
deviations from the mean, dividing by the count. -/
def popVariance (data : List ℚ) (mean : ℚ) : ℚ :=
  ((data.map (fun d => (d - mean) ^ 2)).sum) / (data.length : ℚ)

/-! ## Helper lemmas -/

/-- Unfolding the loop of `babylonian_sqrt` when the guard holds. -/
theorem bab_loop_pos (n : ℕ) (v x y : ℚ) (h : x - y > eps) :
    bab_loop (n + 1) v x y = bab_loop n v ((x + y) / 2) (v / ((x + y) / 2)) := by
  rw [bab_loop, if_pos h]

/-- Unfolding the loop of `babylonian_sqrt` when the guard fails. -/
theorem bab_loop_neg (n : ℕ) (v x y : ℚ) (h : ¬(x - y > eps)) :
    bab_loop (n + 1) v x y = some x := by
  rw [bab_loop, if_neg h]

/-- A running-sum fold is the initial value plus the sum of the images. -/
theorem foldl_add_map (f : ℚ → ℚ) :
    ∀ (l : List ℚ) (a : ℚ), l.foldl (fun s d => s + f d) a = a + (l.map f).sum
  | [], a => by simp
  | x :: xs, a => by
    rw [List.foldl_cons, foldl_add_map f xs (a + f x)]
    simp [add_assoc]

/-- `calculate_stddev` is `babylonian_sqrt` applied to the population
variance. -/
theorem calculate_stddev_eq (data : List ℚ) (mean : ℚ) :
    calculate_stddev data mean = babylonian_sqrt (popVariance data mean) := by
  unfold calculate_stddev popVariance
  rw [foldl_add_map (fun d => (d - mean) * (d - mean)) data 0, zero_add]
  simp only [pow_two]

/-- The population variance is nonnegative. -/
theorem popVariance_nonneg (data : List ℚ) (mean : ℚ) :
    0 ≤ popVariance data mean := by
  unfold popVariance
  apply div_nonneg
  · apply List.sum_nonneg
    intro q hq
    obtain ⟨d, _, rfl⟩ := List.mem_map.mp hq
    positivity
  · positivity

end BasicStats

namespace BasicStats

/-! ## Claims C7 (mean), C3 (median), C8 (harmonic mean) -/

/-- **C7.** For every input sequence of `N ≥ 1` values, the result of
`calculate_mean` multiplied by `N` equals the sum of all the values;
equivalently, `calculate_mean` returns the sum divided by the count. -/
theorem mean_mul_count_eq_sum (l : List ℚ) (h : 1 ≤ l.length) :
    calculate_mean l * (l.length : ℚ) = l.sum ∧
      calculate_mean l = l.sum / (l.length : ℚ) := by
  have hlen : (l.length : ℚ) ≠ 0 := Nat.cast_ne_zero.mpr (by omega)
  have hm : calculate_mean l = l.sum / (l.length : ℚ) := by
    unfold calculate_mean
    rw [foldl_add_map (fun d => d) l 0, zero_add]
    simp
  refine ⟨?_, hm⟩
  rw [hm, div_mul_cancel₀ _ hlen]

/-- Witness for C7 at the concrete input `[1, 2]`. -/
theorem mean_mul_count_eq_sum_witness :
    1 ≤ ([(1 : ℚ), 2]).length ∧
      (calculate_mean [(1 : ℚ), 2] * (([(1 : ℚ), 2]).length : ℚ) = ([(1 : ℚ), 2]).sum ∧
        calculate_mean [(1 : ℚ), 2] = ([(1 : ℚ), 2]).sum / (([(1 : ℚ), 2]).length : ℚ)) :=
  ⟨by norm_num, mean_mul_count_eq_sum [(1 : ℚ), 2] (by norm_num)⟩

/-- **C3.** For every sequence of length `N ≥ 1`, `calculate_median` returns
the average of the two middle elements at indices `N/2 - 1` and `N/2` when `N`
is even, and the single middle element at index `N/2` when `N` is odd. -/
theorem median_middle_elements (l : List ℚ) (h : 1 ≤ l.length) :
    calculate_median l =
      if l.length % 2 = 0 then
        (l.get ⟨l.length / 2 - 1, by omega⟩ + l.get ⟨l.length / 2, by omega⟩) / 2
      else l.get ⟨l.length / 2, by omega⟩ := by
  unfold calculate_median
  by_cases hpar : l.length % 2 = 0
  · rw [if_pos hpar, if_pos hpar,
      List.getD_eq_getElem l 0 (show l.length / 2 - 1 < l.length by omega),
      List.getD_eq_getElem l 0 (show l.length / 2 < l.length by omega)]
    rfl
  · rw [if_neg hpar, if_neg hpar,
      List.getD_eq_getElem l 0 (show l.length / 2 < l.length by omega)]
    rfl

/-- Witness for C3 at the concrete input `[1, 2, 3, 4]`. -/
theorem median_middle_elements_witness :
    1 ≤ ([(1 : ℚ), 2, 3, 4]).length ∧
      calculate_median [(1 : ℚ), 2, 3, 4] =
        if ([(1 : ℚ), 2, 3, 4]).length % 2 = 0 then
          (([(1 : ℚ), 2, 3, 4]).get ⟨([(1 : ℚ), 2, 3, 4]).length / 2 - 1, by decide⟩ +
              ([(1 : ℚ), 2, 3, 4]).get ⟨([(1 : ℚ), 2, 3, 4]).length / 2, by decide⟩) / 2
        else ([(1 : ℚ), 2, 3, 4]).get ⟨([(1 : ℚ), 2, 3, 4]).length / 2, by decide⟩ :=
  ⟨by norm_num, median_middle_elements [(1 : ℚ), 2, 3, 4] (by norm_num)⟩

/-- **C8.** For every non-empty input sequence with no zero value,
`calculate_harmonic_mean` returns the count divided by the sum of the
reciprocals of the values; on `[1, 2, 4]` it equals `3 / (1 + 1/2 + 1/4)`,
which is `1.714` to three decimal places. -/
theorem harmonic_mean_spec (l : List ℚ) (h1 : l ≠ []) (h2 : ∀ x ∈ l, x ≠ 0) :
    calculate_harmonic_mean l = (l.length : ℚ) / ((l.map (fun x => 1 / x)).sum) ∧
      calculate_harmonic_mean [1, 2, 4] = 3 / (1 + 1 / 2 + 1 / 4) ∧
      |calculate_harmonic_mean [1, 2, 4] - 1714 / 1000| < 5 / 10000 := by
  refine ⟨?_, ?_, ?_⟩
  · unfold calculate_harmonic_mean
    rw [foldl_add_map (fun d => 1 / d) l 0, zero_add]
  · norm_num [calculate_harmonic_mean]
  · have hval : calculate_harmonic_mean [1, 2, 4] = 12 / 7 := by
      norm_num [calculate_harmonic_mean]
    rw [hval, abs_lt]
    constructor <;> norm_num

/-! ## The square-root routine: C5, C2, C4, C6 -/

/-- For any value below `1`, the loop guard `x - y > e` is false on entry
(`value - 1 < 0`), so `babylonian_sqrt` returns its argument unchanged. -/
theorem babylonian_sqrt_lt_one (v : ℚ) (hv : v < 1) : babylonian_sqrt v = some v := by
  unfold babylonian_sqrt
  rw [show (100 : ℕ) = 99 + 1 from rfl]
  apply bab_loop_neg
  rw [not_lt]
  have : (0 : ℚ) < eps := by norm_num [eps]
  linarith

/-- One loop iteration preserves positivity of both estimates and their
product being `value`, and at least halves the gap `x - y`. -/
theorem bab_step (v x y : ℚ) (hx : 0 < x) (hy : 0 < y) (hv : x * y = v)
    (hd : 0 < x - y) :
    0 < (x + y) / 2 ∧ 0 < v / ((x + y) / 2) ∧
      ((x + y) / 2) * (v / ((x + y) / 2)) = v ∧
      (x + y) / 2 - v / ((x + y) / 2) ≤ (x - y) / 2 := by
  have hs : 0 < (x + y) / 2 := by linarith
  have hvpos : 0 < v := hv ▸ mul_pos hx hy
  have hprod : ((x + y) / 2) * (v / ((x + y) / 2)) = v := by
    rw [mul_comm, div_mul_cancel₀ v (ne_of_gt hs)]
  have hid : (x + y) / 2 - v / ((x + y) / 2) = (x - y) ^ 2 / (4 * ((x + y) / 2)) := by
    rw [← hv]
    field_simp
    ring
  refine ⟨hs, div_pos hvpos hs, hprod, ?_⟩
  rw [hid]
  rw [div_le_div_iff (by linarith) two_pos]
  nlinarith [hd, hy]

/-- If the gap `x - y` is at most `eps * 2 ^ k`, the loop converges within
`k + 1` iterations, provided both estimates are positive with product
`value`. -/
theorem bab_loop_converges (v : ℚ) :
    ∀ (k : ℕ) (x y : ℚ), 0 < x → 0 < y → x * y = v → x - y ≤ eps * 2 ^ k →
      ∃ r, bab_loop (k + 1) v x y = some r
  | 0, x, y, _, _, _, hb => by
    refine ⟨x, bab_loop_neg 0 v x y ?_⟩
    rw [not_lt]
    simpa using hb
  | k + 1, x, y, hx, hy, hv, hb => by
    by_cases hg : x - y > eps
    · rw [bab_loop_pos (k + 1) v x y hg]
      have hd : 0 < x - y := lt_trans (by norm_num [eps]) hg
      obtain ⟨h1, h2, h3, h4⟩ := bab_step v x y hx hy hv hd
      apply bab_loop_converges v k _ _ h1 h2 h3
      have hp : eps * 2 ^ (k + 1) = 2 * (eps * 2 ^ k) := by
        rw [pow_succ]; ring
      linarith
    · exact ⟨x, bab_loop_neg (k + 1) v x y hg⟩

/-- **C6.** For every value `≥ 0`, the loop of `babylonian_sqrt` terminates:
some finite fuel makes the guard fail, so the routine is total on
non-negative inputs. -/
theorem babylonian_sqrt_terminates (v : ℚ) (hv : 0 ≤ v) :
    ∃ n r, bab_loop n v v 1 = some r := by
  by_cases h : v - 1 > eps
  · have heps : (0 : ℚ) < eps := by norm_num [eps]
    obtain ⟨k, hk⟩ :=
      pow_unbounded_of_one_lt (α := ℚ) ((v - 1) / eps) (by norm_num : (1 : ℚ) < 2)
    have hb : v - 1 ≤ eps * 2 ^ k := by
      rw [div_lt_iff heps] at hk
      linarith
    obtain ⟨r, hr⟩ :=
      bab_loop_converges v k v 1 (by linarith) one_pos (mul_one v) hb
    exact ⟨k + 1, r, hr⟩
  · exact ⟨1, v, bab_loop_neg 0 v v 1 h⟩

/-- Witness for C6 at the concrete input `2`. -/
theorem babylonian_sqrt_terminates_witness :
    0 ≤ (2 : ℚ) ∧ ∃ n r, bab_loop n 2 2 1 = some r :=
  ⟨by norm_num, babylonian_sqrt_terminates 2 (by norm_num)⟩

/-- **C5.** `babylonian_sqrt` iterates `x = (x+y)/2; y = value/x` from
`x = value, y = 1` until `x - y ≤ 1e-6`: on `0` the loop never executes
(whatever the fuel) and the result is `0`; on `4` the result is within
`1e-6` of `2`; on `2` the result is within `1e-6` of the true square root
(its square brackets `2`) and prints as `1.41421` to five decimal places. -/
theorem babylonian_sqrt_values :
    (∀ n : ℕ, bab_loop (n + 1) 0 0 1 = some 0) ∧
      babylonian_sqrt 0 = some 0 ∧
      babylonian_sqrt 4 = some (21523361 / 10761680) ∧
      |(21523361 / 10761680 : ℚ) - 2| ≤ eps ∧
      babylonian_sqrt 2 = some (665857 / 470832) ∧
      ((665857 / 470832 : ℚ) - eps) ^ 2 < 2 ∧
      (2 : ℚ) < ((665857 / 470832 : ℚ) + eps) ^ 2 ∧
      |(665857 / 470832 : ℚ) - 141421 / 100000| < 5 / 1000000 := by
  refine ⟨?_, ?_, ?_, ?_, ?_, ?_, ?_, ?_⟩
  · intro n
    apply bab_loop_neg
    norm_num [eps]
  · exact babylonian_sqrt_lt_one 0 (by norm_num)
  · unfold babylonian_sqrt
    rw [show (100 : ℕ) = 99 + 1 from rfl, bab_loop_pos 99 4 4 1 (by norm_num [eps])]
    norm_num only
    rw [show (99 : ℕ) = 98 + 1 from rfl,
      bab_loop_pos 98 4 (5 / 2) (8 / 5) (by norm_num [eps])]
    norm_num only
    rw [show (98 : ℕ) = 97 + 1 from rfl,
      bab_loop_pos 97 4 (41 / 20) (80 / 41) (by norm_num [eps])]
    norm_num only
    rw [show (97 : ℕ) = 96 + 1 from rfl,
      bab_loop_pos 96 4 (3281 / 1640) (6560 / 3281) (by norm_num [eps])]
    norm_num only
    rw [show (96 : ℕ) = 95 + 1 from rfl,
      bab_loop_neg 95 4 (21523361 / 10761680) (43046720 / 21523361) (by norm_num [eps])]
  · rw [abs_le]
    constructor <;> norm_num [eps]
  · unfold babylonian_sqrt
    rw [show (100 : ℕ) = 99 + 1 from rfl, bab_loop_pos 99 2 2 1 (by norm_num [eps])]
    norm_num only
    rw [show (99 : ℕ) = 98 + 1 from rfl,
      bab_loop_pos 98 2 (3 / 2) (4 / 3) (by norm_num [eps])]
    norm_num only
    rw [show (98 : ℕ) = 97 + 1 from rfl,
      bab_loop_pos 97 2 (17 / 12) (24 / 17) (by norm_num [eps])]
    norm_num only
    rw [show (97 : ℕ) = 96 + 1 from rfl,
      bab_loop_pos 96 2 (577 / 408) (816 / 577) (by norm_num [eps])]
    norm_num only
    rw [show (96 : ℕ) = 95 + 1 from rfl,
      bab_loop_neg 95 2 (665857 / 470832) (941664 / 665857) (by norm_num [eps])]
  · norm_num [eps]
  · norm_num [eps]
  · rw [abs_lt]
    constructor <;> norm_num

/-- **C2.** For every value `v` with `0 ≤ v < 1`, `babylonian_sqrt` returns
`v` unchanged (the guard is false on entry); consequently `calculate_stddev`
returns the population variance itself, not its square root, whenever that
variance is below `1`. -/
theorem stddev_returns_variance_below_one :
    (∀ v : ℚ, 0 ≤ v → v < 1 → babylonian_sqrt v = some v) ∧
      ∀ data : List ℚ, data ≠ [] →
        popVariance data (calculate_mean data) < 1 →
        calculate_stddev data (calculate_mean data) =
          some (popVariance data (calculate_mean data)) := by
  constructor
  · intro v _ hv
    exact babylonian_sqrt_lt_one v hv
  · intro data _ hvar
    rw [calculate_stddev_eq]
    exact babylonian_sqrt_lt_one _ hvar

/-- Witness for C2 at `v = 1/2` and the data `[1, 2]`. -/
theorem stddev_returns_variance_below_one_witness :
    ((0 : ℚ) ≤ 1 / 2 ∧ (1 / 2 : ℚ) < 1 ∧ babylonian_sqrt (1 / 2) = some (1 / 2)) ∧
      (([(1 : ℚ), 2] : List ℚ) ≠ [] ∧
        popVariance [(1 : ℚ), 2] (calculate_mean [(1 : ℚ), 2]) < 1 ∧
        calculate_stddev [(1 : ℚ), 2] (calculate_mean [(1 : ℚ), 2]) =
          some (popVariance [(1 : ℚ), 2] (calculate_mean [(1 : ℚ), 2]))) := by
  have hvar : popVariance [(1 : ℚ), 2] (calculate_mean [(1 : ℚ), 2]) < 1 := by
    norm_num [popVariance, calculate_mean]
  exact ⟨⟨by norm_num, by norm_num,
      stddev_returns_variance_below_one.1 (1 / 2) (by norm_num) (by norm_num)⟩,
    ⟨by simp, hvar,
      stddev_returns_variance_below_one.2 [(1 : ℚ), 2] (by simp) hvar⟩⟩

/-- **C4.** `calculate_stddev` computes the population standard deviation —
`babylonian_sqrt` of the mean of squared deviations from the mean, dividing
by the count `N` — and on a constant sequence it returns exactly `0`. -/
theorem stddev_population_formula :
    (∀ (data : List ℚ) (mean : ℚ),
        calculate_stddev data mean = babylonian_sqrt (popVariance data mean)) ∧
      ∀ (n : ℕ) (c : ℚ), 1 ≤ n →
        calculate_stddev (List.replicate n c) (calculate_mean (List.replicate n c)) =
          some 0 := by
  refine ⟨calculate_stddev_eq, ?_⟩
  intro n c hn
  have hlen : ((List.replicate n c).length : ℚ) ≠ 0 := by
    rw [List.length_replicate]
    exact Nat.cast_ne_zero.mpr (by omega)
  have hmean : calculate_mean (List.replicate n c) = c := by
    unfold calculate_mean
    rw [foldl_add_map (fun d => d) (List.replicate n c) 0, zero_add]
    rw [List.map_id', List.sum_replicate, nsmul_eq_mul, List.length_replicate]
    rw [List.length_replicate] at hlen
    field_simp
  have hvar : popVariance (List.replicate n c) c = 0 := by
    unfold popVariance
    rw [List.map_replicate]
    simp
  rw [calculate_stddev_eq, hmean, hvar]
  exact babylonian_sqrt_lt_one 0 (by norm_num)

/-- Witness for C4 at the constant sequence `replicate 3 5`. -/
theorem stddev_population_formula_witness :
    calculate_stddev [(7 : ℚ)] 7 = babylonian_sqrt (popVariance [(7 : ℚ)] 7) ∧
      (1 ≤ 3 ∧
        calculate_stddev (List.replicate 3 (5 : ℚ))
            (calculate_mean (List.replicate 3 (5 : ℚ))) = some 0) :=
  ⟨stddev_population_formula.1 [(7 : ℚ)] 7,
    by norm_num, stddev_population_formula.2 3 5 (by norm_num)⟩

/-- Witness for C8 at the concrete input `[1, 2, 4]`. -/
theorem harmonic_mean_spec_witness :
    ([(1 : ℚ), 2, 4] ≠ []) ∧
      (calculate_harmonic_mean [(1 : ℚ), 2, 4] =
          (([(1 : ℚ), 2, 4]).length : ℚ) / ((([(1 : ℚ), 2, 4]).map (fun x => 1 / x)).sum) ∧
        calculate_harmonic_mean [1, 2, 4] = 3 / (1 + 1 / 2 + 1 / 4) ∧
        |calculate_harmonic_mean [1, 2, 4] - 1714 / 1000| < 5 / 10000) :=
  ⟨by simp, harmonic_mean_spec [(1 : ℚ), 2, 4] (by simp)
    (by intro x hx; fin_cases hx <;> norm_num)⟩

/-! ## The growable buffer: C9 and C10 -/

/-- When every allocation succeeds, ingestion appends the values in order and
the capacity evolves as `capGrow` describes. -/
theorem ingest_all_alloc :
    ∀ (vs : List ℚ) (data : List ℚ) (cap : ℕ),
      ingest (vs.map (fun v => (v, true))) (data, cap) =
        some (data ++ vs, capGrow data.length cap vs.length)
  | [], data, cap => by simp [ingest, capGrow]
  | v :: rest, data, cap => by
    by_cases h : data.length = cap
    · rw [List.map_cons]
      show (match ingest_step true (data, cap) v with
        | some st2 => ingest (rest.map (fun v => (v, true))) st2
        | none => none) =
        some (data ++ v :: rest, capGrow data.length cap (v :: rest).length)
      rw [show ingest_step true (data, cap) v = some (data ++ [v], 2 * cap) by
        simp [ingest_step, h, enlarge_array]]
      show ingest (rest.map (fun v => (v, true))) (data ++ [v], 2 * cap) =
        some (data ++ v :: rest, capGrow data.length cap (v :: rest).length)
      rw [ingest_all_alloc rest (data ++ [v]) (2 * cap)]
      simp [capGrow, h]
    · rw [List.map_cons]
      show (match ingest_step true (data, cap) v with
        | some st2 => ingest (rest.map (fun v => (v, true))) st2
        | none => none) =
        some (data ++ v :: rest, capGrow data.length cap (v :: rest).length)
      rw [show ingest_step true (data, cap) v = some (data ++ [v], cap) by
        simp [ingest_step, h]]
      show ingest (rest.map (fun v => (v, true))) (data ++ [v], cap) =
        some (data ++ v :: rest, capGrow data.length cap (v :: rest).length)
      rw [ingest_all_alloc rest (data ++ [v]) cap]
      simp [capGrow, h]

/-- Ingestion preserves `length ≤ capacity` (and positivity of the
capacity). -/
theorem ingest_capacity_invariant :
    ∀ (input : List (ℚ × Bool)) (st st2 : List ℚ × ℕ),
      1 ≤ st.2 → st.1.length ≤ st.2 → ingest input st = some st2 →
      st2.1.length ≤ st2.2 ∧ 1 ≤ st2.2
  | [], st, st2, h1, h2, heq => by
    obtain rfl : st = st2 := by simpa [ingest] using heq
    exact ⟨h2, h1⟩
  | (v, a) :: rest, st, st2, h1, h2, heq => by
    by_cases hl : st.1.length = st.2
    · cases a
      · exact absurd heq (by simp [ingest, ingest_step, hl, enlarge_array])
      · have heq2 : ingest rest (st.1 ++ [v], 2 * st.2) = some st2 := by
          rw [show ingest ((v, true) :: rest) st =
              ingest rest (st.1 ++ [v], 2 * st.2) by
            simp [ingest, ingest_step, hl, enlarge_array]] at heq
          exact heq
        refine ingest_capacity_invariant rest (st.1 ++ [v], 2 * st.2) st2
          (by omega) ?_ heq2
        simp only [List.length_append, List.length_cons, List.length_nil]
        omega
    · have heq2 : ingest rest (st.1 ++ [v], st.2) = some st2 := by
        rw [show ingest ((v, a) :: rest) st = ingest rest (st.1 ++ [v], st.2) by
          simp [ingest, ingest_step, hl]] at heq
        exact heq
      refine ingest_capacity_invariant rest (st.1 ++ [v], st.2) st2 h1 ?_ heq2
      simp only [List.length_append, List.length_cons, List.length_nil]
      omega

/-- **C9.** Starting from capacity 20, appending 41 values (all allocations
succeeding) ends with capacity 80 after exactly the growth steps
`20 → 40 → 80`, the values are retrievable in insertion order, and
`capacity ≥ length` holds at every intermediate point. -/
theorem buffer_growth (vs : List ℚ) (h : vs.length = 41) :
    run_ingest (vs.map (fun v => (v, true))) = some (vs, 80) ∧
      ∀ (n : ℕ) (st : List ℚ × ℕ),
        ingest ((vs.take n).map (fun v => (v, true))) ([], 20) = some st →
        st.1.length ≤ st.2 := by
  constructor
  · unfold run_ingest
    rw [ingest_all_alloc vs [] 20]
    rw [show ([] : List ℚ).length = 0 from rfl, h]
    rw [show capGrow 0 20 41 = 80 from by decide]
    simp
  · intro n st hst
    exact (ingest_capacity_invariant _ _ _ (by norm_num) (by simp) hst).1

/-- Witness for C9 at the 41-element sequence `replicate 41 7`. -/
theorem buffer_growth_witness :
    (List.replicate 41 (7 : ℚ)).length = 41 ∧
      (run_ingest ((List.replicate 41 (7 : ℚ)).map (fun v => (v, true))) =
          some (List.replicate 41 (7 : ℚ), 80) ∧
        ∀ (n : ℕ) (st : List ℚ × ℕ),
          ingest (((List.replicate 41 (7 : ℚ)).take n).map (fun v => (v, true)))
              ([], 20) = some st →
          st.1.length ≤ st.2) :=
  ⟨by simp, buffer_growth (List.replicate 41 (7 : ℚ)) (by simp)⟩

/-- **C10.** On allocation failure, `enlarge_array` returns the error result
(`none`), the old buffer is not freed (it is freed exactly on a successful
copy, which returns it intact), and the ingestion loop aborts immediately
with no partial-state continuation. -/
theorem enlarge_failure_safe :
    (∀ (old : List ℚ) (cap : ℕ),
        enlarge_array old cap false = (none, 2 * cap, false) ∧
          enlarge_array old cap true = (some old, 2 * cap, true)) ∧
      ∀ (v : ℚ) (rest : List (ℚ × Bool)) (st : List ℚ × ℕ),
        st.1.length = st.2 → ingest ((v, false) :: rest) st = none := by
  constructor
  · intro old cap
    exact ⟨rfl, rfl⟩
  · intro v rest st h
    simp [ingest, ingest_step, h, enlarge_array]

/-! ## The mode: C1 -/

/-- Run-length encoding never produces the empty list. -/
theorem runsFrom_ne_nil : ∀ (xs : List ℚ) (prev : ℚ) (c : ℕ), runsFrom prev c xs ≠ []
  | [], prev, c => by simp [runsFrom]
  | d :: rest, prev, c => by
    by_cases hd : d = prev
    · rw [show runsFrom prev c (d :: rest) = runsFrom prev (c + 1) rest by
        simp [runsFrom, hd]]
      exact runsFrom_ne_nil rest prev (c + 1)
    · simp [runsFrom, hd]

/-- The first run produced by `runsFrom` carries the pending value, with a
multiplicity at least the pending one. -/
theorem runsFrom_head : ∀ (xs : List ℚ) (prev : ℚ) (c : ℕ),
    ∃ c2 rest2, c ≤ c2 ∧ runsFrom prev c xs = (prev, c2) :: rest2
  | [], prev, c => ⟨c, [], le_refl c, by simp [runsFrom]⟩
  | d :: rest, prev, c => by
    by_cases hd : d = prev
    · obtain ⟨c2, rest2, hc, heq⟩ := runsFrom_head rest prev (c + 1)
      refine ⟨c2, rest2, by omega, ?_⟩
      rw [show runsFrom prev c (d :: rest) = runsFrom prev (c + 1) rest by
        simp [runsFrom, hd]]
      exact heq
    · exact ⟨c, runsFrom d 1 rest, le_refl c, by simp [runsFrom, hd]⟩

/-- All run lengths produced by `runsFrom` are positive (given a positive
pending multiplicity). -/
theorem runsFrom_counts : ∀ (xs : List ℚ) (prev : ℚ) (c : ℕ), 1 ≤ c →
    ∀ p ∈ runsFrom prev c xs, 1 ≤ p.2
  | [], prev, c, hc, p, hp => by
    rw [show runsFrom prev c [] = [(prev, c)] from rfl] at hp
    rw [List.mem_singleton.mp hp]
    exact hc
  | d :: rest, prev, c, hc, p, hp => by
    by_cases hd : d = prev
    · rw [show runsFrom prev c (d :: rest) = runsFrom prev (c + 1) rest by
        simp [runsFrom, hd]] at hp
      exact runsFrom_counts rest prev (c + 1) (by omega) p hp
    · rw [show runsFrom prev c (d :: rest) = (prev, c) :: runsFrom d 1 rest by
        simp [runsFrom, hd]] at hp
      rcases List.mem_cons.mp hp with h | h

      · rw [h]; exact hc
      · exact runsFrom_counts rest d 1 (le_refl 1) p h

/-- `find?` only depends on the predicate's values on the list. -/
theorem find_congr_mem {α : Type} (p q : α → Bool) :
    ∀ (l : List α), (∀ x ∈ l, p x = q x) → l.find? p = l.find? q
  | [], _ => rfl
  | a :: t, h => by
    have ha : p a = q a := h a (List.mem_cons_self a t)
    cases hpa : p a
    · rw [List.find?_cons_of_neg t (by rw [hpa]; simp),
        List.find?_cons_of_neg t (by rw [← ha, hpa]; simp)]
      exact find_congr_mem p q t (fun x hx => h x (List.mem_cons_of_mem a hx))
    · rw [List.find?_cons_of_pos t hpa, List.find?_cons_of_pos t (by rw [← ha]; exact hpa)]

/-- Every non-empty list of runs has an element of maximal length. -/
theorem exists_max_snd : ∀ (l : List (ℚ × ℕ)), l ≠ [] → ∃ p ∈ l, ∀ q ∈ l, q.2 ≤ p.2
  | [], h => absurd rfl h
  | a :: t, _ => by
    cases t with
    | nil =>
      refine ⟨a, List.mem_cons_self a [], ?_⟩
      intro q hq
      rcases List.mem_cons.mp hq with h | h
      · rw [h]
      · cases h
    | cons b t2 =>
      obtain ⟨m, hm, hmax⟩ := exists_max_snd (b :: t2) (by simp)
      by_cases hc : m.2 ≤ a.2
      · refine ⟨a, List.mem_cons_self _ _, ?_⟩
        intro q hq
        rcases List.mem_cons.mp hq with h | h
        · rw [h]
        · exact le_trans (hmax q h) hc
      · refine ⟨m, List.mem_cons_of_mem a hm, ?_⟩
        intro q hq
        rcases List.mem_cons.mp hq with h | h
        · rw [h]; exact le_of_not_le hc
        · exact hmax q h

/-- The scanning loop of `calculate_mode` is the strict-improvement fold
`updMax` over the *completed* runs (all runs but the last), started from the
incoming candidate. -/
theorem mode_go_eq_foldl :
    ∀ (xs : List ℚ) (prev mode : ℚ) (max_count count : ℕ),
      mode_go xs prev mode max_count count =
        (((runsFrom prev count xs).dropLast).foldl updMax (mode, max_count)).1
  | [], prev, mode, mc, c => by simp [mode_go, runsFrom]
  | d :: rest, prev, mode, mc, c => by
    by_cases hd : d = prev
    · rw [show mode_go (d :: rest) prev mode mc c = mode_go rest d mode mc (c + 1) by
        simp [mode_go, hd]]
      rw [show runsFrom prev c (d :: rest) = runsFrom prev (c + 1) rest by
        simp [runsFrom, hd]]
      subst hd
      exact mode_go_eq_foldl rest d mode mc (c + 1)
    · rw [show mode_go (d :: rest) prev mode mc c =
          (if c > mc then mode_go rest d prev c 1 else mode_go rest d mode mc 1) by
        simp [mode_go, hd]]
      rw [show runsFrom prev c (d :: rest) = (prev, c) :: runsFrom d 1 rest by
        simp [runsFrom, hd]]
      rw [List.dropLast_cons_of_ne_nil (runsFrom_ne_nil rest d 1), List.foldl_cons]
      by_cases hc : c > mc
      · rw [if_pos hc, show updMax (mode, mc) (prev, c) = (prev, c) by
          simp [updMax, hc]]
        exact mode_go_eq_foldl rest d prev c 1
      · rw [if_neg hc, show updMax (mode, mc) (prev, c) = (mode, mc) by
          simp [updMax, hc]]
        exact mode_go_eq_foldl rest d mode mc 1

/-- The strict-improvement fold returns the first element that is at least as
long as every element of the list and strictly longer than the seed — the
first maximal run — and the seed when there is none. -/
theorem foldl_updMax_find :
    ∀ (rs : List (ℚ × ℕ)) (acc : ℚ × ℕ),
      rs.foldl updMax acc =
        (rs.find? (fun p => decide (acc.2 < p.2 ∧ ∀ q ∈ rs, q.2 ≤ p.2))).getD acc
  | [], acc => by simp
  | a :: t, acc => by
    rw [List.foldl_cons]
    by_cases hgt : acc.2 < a.2
    · rw [show updMax acc a = a by simp [updMax, hgt]]
      by_cases hall : ∀ q ∈ t, q.2 ≤ a.2
      · have hpa : (fun p => decide (acc.2 < p.2 ∧ ∀ q ∈ a :: t, q.2 ≤ p.2)) a = true := by
          simp only [decide_eq_true_eq]
          refine ⟨hgt, ?_⟩
          intro q hq
          rcases List.mem_cons.mp hq with h | h
          · rw [h]
          · exact hall q h
        rw [List.find?_cons_of_pos t hpa, Option.getD_some]
        rw [foldl_updMax_find t a]
        rw [show t.find? (fun p => decide (a.2 < p.2 ∧ ∀ q ∈ t, q.2 ≤ p.2)) = none from
          List.find?_eq_none.mpr (by
            intro p hp
            simp only [decide_eq_true_eq, not_and]
            intro hlt
            exact absurd hlt (not_lt.mpr (hall p hp)))]
        rw [Option.getD_none]
      · push_neg at hall
        obtain ⟨q0, hq0mem, hq0⟩ := hall
        have hpa : (fun p => decide (acc.2 < p.2 ∧ ∀ q ∈ a :: t, q.2 ≤ p.2)) a ≠ true := by
          intro hcontra
          have hc2 := of_decide_eq_true hcontra
          exact absurd (hc2.2 q0 (List.mem_cons_of_mem a hq0mem)) (not_le.mpr hq0)
        rw [List.find?_cons_of_neg t hpa]
        rw [foldl_updMax_find t a]
        have hcong : t.find? (fun p => decide (a.2 < p.2 ∧ ∀ q ∈ t, q.2 ≤ p.2)) =
            t.find? (fun p => decide (acc.2 < p.2 ∧ ∀ q ∈ a :: t, q.2 ≤ p.2)) := by
          apply find_congr_mem
          intro p hp
          apply decide_eq_decide.mpr
          constructor
          · rintro ⟨hlt, hallt⟩
            refine ⟨lt_trans hgt hlt, ?_⟩
            intro q hq
            rcases List.mem_cons.mp hq with h | h
            · rw [h]; exact le_of_lt hlt
            · exact hallt q h
          · rintro ⟨hlt2, hallcons⟩
            have hap : a.2 < p.2 :=
              lt_of_lt_of_le hq0 (hallcons q0 (List.mem_cons_of_mem a hq0mem))
            exact ⟨hap, fun q hq => hallcons q (List.mem_cons_of_mem a hq)⟩
        rw [hcong]
        obtain ⟨m, hm_mem, hm_max⟩ := exists_max_snd t (by
          rintro rfl
          exact absurd hq0mem (List.not_mem_nil q0))
        have ham : a.2 < m.2 := lt_of_lt_of_le hq0 (hm_max q0 hq0mem)
        have hm_pred : (fun p => decide (acc.2 < p.2 ∧ ∀ q ∈ a :: t, q.2 ≤ p.2)) m = true := by
          simp only [decide_eq_true_eq]
          refine ⟨lt_trans hgt ham, ?_⟩
          intro q hq
          rcases List.mem_cons.mp hq with h | h
          · rw [h]; exact le_of_lt ham
          · exact hm_max q h
        have hsome : (t.find?
            (fun p => decide (acc.2 < p.2 ∧ ∀ q ∈ a :: t, q.2 ≤ p.2))).isSome :=
          List.find?_isSome.mpr ⟨m, hm_mem, hm_pred⟩
        obtain ⟨w, hw⟩ := Option.isSome_iff_exists.mp hsome
        rw [hw, Option.getD_some, Option.getD_some]
    · rw [show updMax acc a = acc by simp [updMax]; intro h; exact absurd h hgt]
      rw [foldl_updMax_find t acc]
      have hpa : (fun p => decide (acc.2 < p.2 ∧ ∀ q ∈ a :: t, q.2 ≤ p.2)) a ≠ true := by
        intro hcontra
        have hc2 := of_decide_eq_true hcontra
        exact absurd hc2.1 hgt
      rw [List.find?_cons_of_neg t hpa]
      have hcong : t.find? (fun p => decide (acc.2 < p.2 ∧ ∀ q ∈ t, q.2 ≤ p.2)) =
          t.find? (fun p => decide (acc.2 < p.2 ∧ ∀ q ∈ a :: t, q.2 ≤ p.2)) := by
        apply find_congr_mem
        intro p hp
        apply decide_eq_decide.mpr
        constructor
        · rintro ⟨hlt, hallt⟩
          refine ⟨hlt, ?_⟩
          intro q hq
          rcases List.mem_cons.mp hq with h | h
          · rw [h]
            exact le_trans (not_lt.mp hgt) (le_of_lt hlt)
          · exact hallt q h
        · rintro ⟨hlt2, hallcons⟩
          exact ⟨hlt2, fun q hq => hallcons q (List.mem_cons_of_mem a hq)⟩
      rw [hcong]

/-- Bridge between the fold characterization of the loop and the spec's
first-maximal-run description. -/
theorem mode_find_bridge (x : ℚ) (rs : List (ℚ × ℕ))
    (hhead : rs = [] ∨ ∃ c2 rest2, 1 ≤ c2 ∧ rs = (x, c2) :: rest2)
    (hcounts : ∀ p ∈ rs, 1 ≤ p.2) :
    ((rs.find? (fun p => decide ((1 : ℕ) < p.2 ∧ ∀ q ∈ rs, q.2 ≤ p.2))).getD (x, 1)).1 =
      match rs.find? (fun p => decide (∀ q ∈ rs, q.2 ≤ p.2)) with
      | some p => p.1
      | none => x := by
  rcases hhead with rfl | ⟨c2, rest2, hc2, rfl⟩
  · simp
  · by_cases hall1 : ∀ p ∈ (x, c2) :: rest2, p.2 ≤ 1
    · rw [show ((x, c2) :: rest2).find?
          (fun p => decide ((1 : ℕ) < p.2 ∧ ∀ q ∈ (x, c2) :: rest2, q.2 ≤ p.2)) = none from
        List.find?_eq_none.mpr (by
          intro p hp
          simp only [decide_eq_true_eq, not_and]
          intro hlt
          exact absurd hlt (not_lt.mpr (hall1 p hp)))]
      have hx_pred : (fun p => decide (∀ q ∈ (x, c2) :: rest2, q.2 ≤ p.2)) (x, c2) = true := by
        simp only [decide_eq_true_eq]
        intro q hq
        exact le_trans (hall1 q hq) hc2
      rw [List.find?_cons_of_pos rest2 hx_pred]
      rfl
    · push_neg at hall1
      obtain ⟨p0, hp0mem, hp0⟩ := hall1
      have hcong : ((x, c2) :: rest2).find?
          (fun p => decide ((1 : ℕ) < p.2 ∧ ∀ q ∈ (x, c2) :: rest2, q.2 ≤ p.2)) =
          ((x, c2) :: rest2).find? (fun p => decide (∀ q ∈ (x, c2) :: rest2, q.2 ≤ p.2)) := by
        apply find_congr_mem
        intro p hp
        apply decide_eq_decide.mpr
        constructor
        · rintro ⟨_, hallp⟩
          exact hallp
        · intro hallp
          exact ⟨lt_of_lt_of_le hp0 (hallp p0 hp0mem), hallp⟩
      rw [hcong]
      obtain ⟨m, hm_mem, hm_max⟩ := exists_max_snd ((x, c2) :: rest2) (by simp)
      have hm_pred : (fun p => decide (∀ q ∈ (x, c2) :: rest2, q.2 ≤ p.2)) m = true := by
        simp only [decide_eq_true_eq]
        exact hm_max
      have hsome : (((x, c2) :: rest2).find?
          (fun p => decide (∀ q ∈ (x, c2) :: rest2, q.2 ≤ p.2))).isSome :=
        List.find?_isSome.mpr ⟨m, hm_mem, hm_pred⟩
      obtain ⟨w, hw⟩ := Option.isSome_iff_exists.mp hsome
      rw [hw, Option.getD_some]

/-- **C1.** On a sorted non-empty sequence, `calculate_mode` returns the
value of the first maximal-length run among all runs *except the final one*
(the final run's length is never compared against the running maximum, and
ties keep the earlier run's value); in particular the sorted sequence
`[1,1,2,2,2]` yields mode `1` (not `2`, although the last run is longest)
and `[1,1,1,2,2]` yields mode `1`. -/
theorem mode_first_dominating_run (x : ℚ) (xs : List ℚ)
    (hsorted : (x :: xs).Sorted (· ≤ ·)) :
    calculate_mode (x :: xs) = specMode (x :: xs) ∧
      calculate_mode [1, 1, 2, 2, 2] = 1 ∧ calculate_mode [1, 1, 1, 2, 2] = 1 := by
  refine ⟨?_, by decide, by decide⟩
  have hfold : calculate_mode (x :: xs) =
      (((runs (x :: xs)).dropLast).foldl updMax (x, 1)).1 := by
    rw [show calculate_mode (x :: xs) = mode_go xs x x 1 1 from rfl,
      mode_go_eq_foldl xs x x 1 1]
    rfl
  rw [hfold, foldl_updMax_find]
  have hhead : (runs (x :: xs)).dropLast = [] ∨
      ∃ c2 rest2, 1 ≤ c2 ∧ (runs (x :: xs)).dropLast = (x, c2) :: rest2 := by
    obtain ⟨c2, rest2, hc2, heq⟩ := runsFrom_head xs x 1
    rw [show runs (x :: xs) = runsFrom x 1 xs from rfl, heq]
    cases rest2 with
    | nil => exact Or.inl rfl
    | cons r rest3 =>
      exact Or.inr ⟨c2, (r :: rest3).dropLast, hc2,
        List.dropLast_cons_of_ne_nil (by simp)⟩
  have hcounts : ∀ p ∈ (runs (x :: xs)).dropLast, 1 ≤ p.2 := by
    intro p hp
    exact runsFrom_counts xs x 1 (le_refl 1) p
      (List.mem_of_mem_dropLast (by rw [show runs (x :: xs) = runsFrom x 1 xs from rfl] at hp; exact hp))
  exact mode_find_bridge x ((runs (x :: xs)).dropLast) hhead hcounts

/-- Witness for C1 at the sorted sequence `[1, 1, 2, 2, 2]`. -/
theorem mode_first_dominating_run_witness :
    ([(1 : ℚ), 1, 2, 2, 2]).Sorted (· ≤ ·) ∧
      (calculate_mode [(1 : ℚ), 1, 2, 2, 2] = specMode [(1 : ℚ), 1, 2, 2, 2] ∧
        calculate_mode [1, 1, 2, 2, 2] = 1 ∧ calculate_mode [1, 1, 1, 2, 2] = 1) :=
  ⟨by decide, mode_first_dominating_run 1 [1, 2, 2, 2] (by decide)⟩

/-- Witness for C10 at a full one-element buffer. -/
theorem enlarge_failure_safe_witness :
    (enlarge_array [(3 : ℚ)] 1 false = (none, 2 * 1, false) ∧
        enlarge_array [(3 : ℚ)] 1 true = (some [(3 : ℚ)], 2 * 1, true)) ∧
      (([(3 : ℚ)], 1) : List ℚ × ℕ).1.length = (([(3 : ℚ)], 1) : List ℚ × ℕ).2 ∧
      ingest [((5 : ℚ), false)] ([(3 : ℚ)], 1) = none :=
  ⟨enlarge_failure_safe.1 [(3 : ℚ)] 1, rfl,
    enlarge_failure_safe.2 5 [] ([(3 : ℚ)], 1) rfl⟩

end BasicStats
